import Mathlib

/-!
# VobSub input format: timestamp conversion, image dump and the subtitle packet loop

Shallow embedding of `src/formats/vobsub/vobsubinputformat.h`.

* `unsigned` values are natural numbers below `2^32`; every arithmetic
  operation of the source that can wrap is reduced modulo `2^32`.
* Text is a list of characters (`List Char`), turned into a `String` at the
  interface of `pts2srt`.
* The mplayer routines (`vobsub_get_next_packet`, `spudec_assemble`,
  `spudec_heartbeat`, `spudec_get_data`) are not part of the file; they are
  parameters of the embedding.
* `readBinary` is embedded as compiled. What the source keeps inside comments
  (the vector `conv_subs`, line 128; text recognition and `push_back`, lines
  162-187; the srt writer with the `end_pts` fix-up, lines 192-204) is not code:
  event list, recognition, backfill and writer are modelled from the spec and
  marked so. The loop state keeps a record of the units that reach line 188.
* `dump_pgm` is embedded on its own; the call of lines 158-160 names variables
  the file does not declare and is not part of the loop.
* The loop of `dump_pgm`, which need not end in C, takes a number of steps as fuel.
-/

namespace VobSub

/-! ## Machine integers -/

/-- Number of values of a 32 bit `unsigned`. -/
def U32 : Nat := 2 ^ 32

/-- Largest `unsigned` value, `UINT_MAX`. -/
def UINT_MAX : Nat := 2 ^ 32 - 1

/-- Unsigned 32 bit multiplication. -/
def umul (a b : Nat) : Nat := (a * b) % U32

/-- Unsigned 32 bit subtraction (wraps below zero). -/
def usub (a b : Nat) : Nat := (a + (U32 - b % U32)) % U32

/-- Unsigned 32 bit increment, `++x`. -/
def uinc (a : Nat) : Nat := (a + 1) % U32

/-- The `int` a `%d` conversion reads from an `unsigned` argument. -/
def asInt (v : Nat) : Int := if v % U32 < 2 ^ 31 then (v % U32 : Nat) else (v % U32 : Nat) - (U32 : Int)

/-- The conversion `static_cast<unsigned>(i)` of an `int`. -/
def toUnsigned (i : Int) : Nat := (i % (U32 : Int)).toNat

/-! ## printf conversions -/

/-- Decimal digits of a natural number, most significant first. -/
def decimal (n : Nat) : List Char := Nat.toDigits 10 n

/-- The conversion `%0<w>d`: sign, then the digits padded with zeros up to the field width. -/
def printf_0d (w : Nat) (v : Int) : List Char :=
  if v < 0 then
    '-' :: (List.replicate (w - 1 - (decimal v.natAbs).length) '0' ++ decimal v.natAbs)
  else
    List.replicate (w - (decimal v.toNat).length) '0' ++ decimal v.toNat

/-- The conversion `%u`. -/
def printf_u (v : Nat) : List Char := decimal (v % U32)

/-- The conversion `%0<w>u`. -/
def printf_0u (w : Nat) (v : Nat) : List Char :=
  List.replicate (w - (decimal (v % U32)).length) '0' ++ decimal (v % U32)

/-- What `snprintf(buf, size, ...)` leaves in `buf`: at most `size - 1` characters. -/
def snprintf (size : Nat) (formatted : List Char) : List Char := formatted.take (size - 1)

/-! ## pts2srt (lines 46-59) -/

/-- Value of `sizeof("HH:MM:SS,MSS")`, the buffer length in `pts2srt`. -/
def length : Nat := 13

/-- Characters that `pts2srt` leaves in `buf`. -/
def pts2srtChars (pts : Nat) : List Char :=
  let ms := pts / 90
  let h := ms / (3600 * 1000)
  let ms := usub ms (umul (umul h 3600) 1000)
  let m := ms / (60 * 1000)
  let ms := usub ms (umul (umul m 60) 1000)
  let s := ms / 1000
  let ms := ms % 1000
  snprintf length
    (printf_0d 2 (asInt h) ++ ':' :: printf_0d 2 (asInt m) ++ ':' :: printf_0d 2 (asInt s)
      ++ ',' :: printf_0d 3 (asInt ms))

/-- Converts a time stamp in pts format (90 kHz ticks) to the srt time stamp text. -/
def pts2srt (pts : Nat) : String := String.mk (pts2srtChars pts)

/-! ## Documented formula of the timestamp converter -/

/-- Decimal digit character of a value below ten. -/
def digit (d : Nat) : Char := Char.ofNat (48 + d % 10)

/-- A value written with exactly two decimal digits, zero padded. -/
def pad2 (n : Nat) : List Char := [digit (n / 10), digit n]

/-- A value written with exactly three decimal digits, zero padded. -/
def pad3 (n : Nat) : List Char := [digit (n / 100), digit (n / 10), digit n]

/-- The text `HH:MM:SS,mmm` of the documented formula for a tick count. -/
def srtFormula (t : Nat) : String :=
  let ms := t / 90
  String.mk (pad2 (ms / 3600000) ++ ':' :: pad2 (ms % 3600000 / 60000) ++ ':' ::
    pad2 (ms % 60000 / 1000) ++ ',' :: pad3 (ms % 1000))

/-! ## Data of the packet loop -/

/-- Helper struct for caching and fixing `end_pts` (lines 33-39); `text` is a
`char const *`, `none` being the null pointer. -/
structure sub_text_t where
  start_pts : Nat
  end_pts : Nat
  text : Option (List Char)
deriving DecidableEq, Repr

/-- One result of `vobsub_get_next_packet`: the returned length and the two out-parameters. -/
structure Packet where
  len : Int
  packet : List Nat
  timestamp : Int
deriving DecidableEq, Repr

/-- The out-parameters of `spudec_get_data`. -/
structure SpuData where
  image : List Nat
  image_size : Nat
  width : Nat
  height : Nat
  stride : Nat
  start_pts : Nat
  end_pts : Nat
deriving DecidableEq, Repr

/-- The mplayer sub-picture decoder behind the handle `spu`, with state `σ`. -/
structure Spudec (σ : Type) where
  assemble : σ → List Nat → Int → Int → σ
  heartbeat : σ → Int → σ
  get_data : σ → SpuData

/-- Settings and collaborators: the `verbose` level the loop reads at line 152, and
the text recogniser of the spec (section 4.5), `recognize(bitmap)` applied to the
pixels, width, height and stride of a unit, `none` standing for `Err(OcrFailure)`. -/
structure Config where
  verbose : Int
  recognize : List Nat → Nat → Nat → Nat → Option (List Char)

/-- Messages the loop sends to `qWarning`. -/
inductive Diag where
  | imageTooSmall (sub_counter image_size width height : Nat)
  | timestampMismatch (sub_counter : Nat) (timestamp : Int) (start_pts : Nat)
deriving DecidableEq, Repr

/-- The locals of `readBinary` that live across iterations (`last_start_pts`,
`sub_counter`), the messages sent so far, and in `conv_subs` the record of the
units that reach line 188. The source declares that vector only inside a comment
(line 128); the record is the EventList of the spec (section 4.3, step 7), with
`start_pts` and `end_pts` copied from the unit. -/
structure Run where
  last_start_pts : Nat
  sub_counter : Nat
  conv_subs : List sub_text_t
  diag : List Diag
deriving DecidableEq, Repr

/-- Minimum width, `#define min_width 9`. -/
def min_width : Nat := 9

/-- Minimum height, `#define min_height 1`. -/
def min_height : Nat := 1

/-- Locals at loop entry (lines 126-127), with an empty record. -/
def Run.init : Run := ⟨0, 1, [], []⟩

/-- Modelled from the spec: the fixed diagnostic placeholder that stands for the
text of an event when recognition fails (section 4.5). The compiled source has
no such text; the wording is the one of the comment at line 171. -/
def errormsg : List Char := "VobSub2SRT ERROR: OCR failure!".toList

/-- Modelled from the spec: the TextRecognizer step for the bitmap of one unit
(section 4.5), `recognize(bitmap) -> text | Err(OcrFailure)`, where on failure the
pipeline substitutes the fixed placeholder. The compiled source calls no
recogniser: its Tesseract block (lines 162-187) is inside a comment. -/
def recognisedText (cfg : Config) (d : SpuData) : List Char :=
  match cfg.recognize d.image d.width d.height d.stride with
  | none => errormsg
  | some text => text

/-! ## The packet loop of readBinary (lines 130-190) -/

/-- The statements of one iteration after `spudec_get_data` (lines 139-156 and
188): duplicate test, size check, time stamp warning and `++sub_counter`. A unit
that reaches line 188 is also entered in the record `conv_subs`, with the text
the recogniser step of the spec gives it. -/
def examine (cfg : Config) (r : Run) (timestamp : Int) (d : SpuData) : Run :=
  if d.start_pts = r.last_start_pts then r
  else
    let r := { r with last_start_pts := d.start_pts }
    if d.width < min_width ∨ d.height < min_height then
      { r with diag := r.diag ++ [Diag.imageTooSmall r.sub_counter d.image_size d.width d.height] }
    else
      let r :=
        if cfg.verbose > 0 ∧ toUnsigned timestamp ≠ d.start_pts then
          { r with diag := r.diag ++ [Diag.timestampMismatch r.sub_counter timestamp d.start_pts] }
        else r
      { r with
        conv_subs := r.conv_subs ++ [⟨d.start_pts, d.end_pts, some (recognisedText cfg d)⟩]
        sub_counter := uinc r.sub_counter }

/-- One iteration of the while loop for a packet of positive length. -/
def loopBody {σ : Type} (S : Spudec σ) (cfg : Config) (st : σ × Run) (p : Packet) : σ × Run :=
  if p.timestamp ≥ 0 then
    let spu := S.heartbeat (S.assemble st.1 p.packet p.len p.timestamp) p.timestamp
    (spu, examine cfg st.2 p.timestamp (S.get_data spu))
  else st

/-- The while loop: it runs until `vobsub_get_next_packet` returns a length that is not positive. -/
def packetLoop {σ : Type} (S : Spudec σ) (cfg : Config) : List Packet → σ × Run → σ × Run
  | [], st => st
  | p :: ps, st => if p.len > 0 then packetLoop S cfg ps (loopBody S cfg st p) else st

/-- The units that `spudec_get_data` hands to the loop, each with the time stamp of
its packet, in arrival order. -/
def completedUnits {σ : Type} (S : Spudec σ) : σ → List Packet → List (Int × SpuData)
  | _, [] => []
  | spu, p :: ps =>
    if p.len > 0 then
      if p.timestamp ≥ 0 then
        let spu1 := S.heartbeat (S.assemble spu p.packet p.len p.timestamp) p.timestamp
        (p.timestamp, S.get_data spu1) :: completedUnits S spu1 ps
      else completedUnits S spu ps
    else []

/-- The loop statements applied to a sequence of completed units. -/
def examineAll (cfg : Config) (r : Run) (us : List (Int × SpuData)) : Run :=
  us.foldl (fun acc u => examine cfg acc u.1 u.2) r

/-- The pair (start_pts, end_pts) of an entry. -/
def sub_text_t.times (e : sub_text_t) : Nat × Nat := (e.start_pts, e.end_pts)

/-! ## readBinary (lines 83-208) -/

/-- What `vobsub_open` delivers: the number of language indexes, the decoder
handle and the successive results of `vobsub_get_next_packet`. -/
structure VobSubFiles (σ : Type) where
  indexes_count : Nat
  spu : σ
  packets : List Packet

/-- Outcome of `readBinary`: the returned flag and the warnings of the loop. The
function writes no subtitle: `subtitle` is never touched and the writer of lines
192-204 is inside a comment. -/
structure Outcome where
  ok : Bool
  diag : List Diag
deriving DecidableEq, Repr

/-- The function `readBinary` as compiled; `vob` is `none` when `vobsub_open`
returns null. After the loop it returns true (line 207). -/
def readBinary {σ : Type} (S : Spudec σ) (cfg : Config) (vob : Option (VobSubFiles σ)) : Outcome :=
  match vob with
  | none => ⟨false, []⟩
  | some v =>
    if v.indexes_count = 0 then ⟨false, []⟩
    else if 0 ≥ v.indexes_count then ⟨false, []⟩
    else ⟨true, (packetLoop S cfg v.packets (v.spu, Run.init)).2.diag⟩

/-! ## Event list, backfill and writer of the spec

The compiled source has no event list, no backfill and no writer: the vector
(line 128), the text recognition (lines 162-187) and the writer with the end
time fix-up (lines 192-204) are inside comments. The definitions of this section
follow the spec (sections 3, 4.3 steps 7-9, 6 and 9) and run on the record of the
units the compiled loop accepts. -/

/-- Modelled from the spec: the end time of a Candidate Event, a concrete tick
value or the explicit Open marker (sections 3 and 9); the source has no such type. -/
inductive EndPts where
  | Concrete (pts : Nat)
  | Open
deriving DecidableEq, Repr

/-- Modelled from the spec: a Candidate Event of the EventList (section 3) before
numbering, with start time, end time and text; the compiled source declares no
event list. -/
structure CandidateEvent where
  startPts : Nat
  endPts : EndPts
  text : List Char
deriving DecidableEq, Repr

/-- Modelled from the spec: the Candidate Event for a unit the loop accepted
(section 4.3, step 7), times copied from the unit; the magic maximum value
`UINT_MAX` of the original code is the Open marker (section 9). The compiled
source builds no event. -/
def toEvent (e : sub_text_t) : CandidateEvent :=
  ⟨e.start_pts, if e.end_pts = UINT_MAX then EndPts.Open else EndPts.Concrete e.end_pts,
    e.text.getD []⟩

/-- Modelled from the spec: the backfill rule at position `i` (section 4.3, step
8): an entry that is not the last and whose end is Open takes the start of the
next entry. The compiled source has no backfill (lines 192-204 are a comment). -/
def backfillAt (events : List CandidateEvent) (i : Nat) : List CandidateEvent :=
  match events[i]?, events[i + 1]? with
  | some e, some next =>
    if e.endPts = EndPts.Open then events.set i { e with endPts := EndPts.Concrete next.startPts }
    else events
  | _, _ => events

/-- Modelled from the spec: the single scan of the backfill pass from position `i`
over `n` positions, mutating the list in place (section 4.3, step 8); absent from
the compiled source. -/
def backfillScan : Nat → Nat → List CandidateEvent → List CandidateEvent
  | 0, _, events => events
  | n + 1, i, events => backfillScan n (i + 1) (backfillAt events i)

/-- Modelled from the spec: the backfill pass, one scan of the whole EventList
(section 4.3, step 8); absent from the compiled source. -/
def backfill (events : List CandidateEvent) : List CandidateEvent :=
  backfillScan events.length 0 events

/-- Modelled from the spec: the policy for the Open end of the last entry (section
4.3, step 8): with a default duration the end becomes start plus duration,
without one it stays Open for the writer; absent from the compiled source. -/
def resolveLast (defaultDuration : Option Nat) : List CandidateEvent → List CandidateEvent
  | [] => []
  | [e] =>
    match defaultDuration, e.endPts with
    | some duration, EndPts.Open => [{ e with endPts := EndPts.Concrete (e.startPts + duration) }]
    | _, _ => [e]
  | e :: next :: rest => e :: resolveLast defaultDuration (next :: rest)

/-- Modelled from the spec: an entry of the primary output (section 6): the
1-based sequence number, the two texts of the timing line (no end text while the
end is Open) and the recognised text; the compiled source writes no entry. -/
structure WrittenEntry where
  sequenceNumber : Nat
  start : String
  stop : Option String
  text : List Char
deriving DecidableEq, Repr

/-- Modelled from the spec: the entry written for an event under a given sequence
number, its times in the text form of the timestamp converter (section 6);
absent from the compiled source. -/
def writtenOf (number : Nat) (e : CandidateEvent) : WrittenEntry :=
  ⟨number, pts2srt e.startPts,
    match e.endPts with
    | EndPts.Concrete pts => some (pts2srt pts)
    | EndPts.Open => none,
    e.text⟩

/-- Modelled from the spec: the EventWriter handing out sequence numbers at write
time, from `number` on (section 4.3, step 9); absent from the compiled source. -/
def writeFrom : Nat → List CandidateEvent → List WrittenEntry
  | _, [] => []
  | number, e :: es => writtenOf number e :: writeFrom (number + 1) es

/-- Modelled from the spec: the EventWriter on the finalized EventList, numbering
from 1 (section 4.3, step 9); absent from the compiled source. -/
def writeEvents (events : List CandidateEvent) : List WrittenEntry := writeFrom 1 events

/-- Modelled from the spec: the EventPipeline (section 4.3): the packet loop of
the compiled source, then the steps the compiled source lacks, namely the event
list of the accepted units (step 7), backfill and last-end policy (step 8) and
the writer (step 9). -/
def eventPipeline {σ : Type} (S : Spudec σ) (cfg : Config) (defaultDuration : Option Nat)
    (spu : σ) (pkts : List Packet) : List WrittenEntry :=
  writeEvents (resolveLast defaultDuration
    (backfill ((packetLoop S cfg pkts (spu, Run.init)).2.conv_subs.map toEvent)))

/-! ## Reference descriptions used in the statements -/

/-- The backfill described entry by entry: an entry that has a successor and whose
end is Open takes the successor's start. -/
def backfilled : List CandidateEvent → List CandidateEvent
  | [] => []
  | [e] => [e]
  | e :: next :: rest =>
    (if e.endPts = EndPts.Open then { e with endPts := EndPts.Concrete next.startPts } else e) ::
      backfilled (next :: rest)

/-- The units of a sequence that pass both the duplicate test and the size check,
`last` being the value of `last_start_pts` before the first of them. -/
def passedUnits : Nat → List (Int × SpuData) → List SpuData
  | _, [] => []
  | last, u :: us =>
    if u.2.start_pts = last then passedUnits last us
    else if u.2.width < 9 ∨ u.2.height < 1 then passedUnits u.2.start_pts us
    else u.2 :: passedUnits u.2.start_pts us

/-- The iteration for a unit ends at the first `continue` (deduplication): no
local changes and no message is sent. -/
def discardedAsDuplicate (cfg : Config) (r : Run) (timestamp : Int) (d : SpuData) : Prop :=
  examine cfg r timestamp d = r

/-- The iteration for a unit ends at the second `continue` (size check): the
warning is sent, nothing is appended and the counter stays. -/
def rejectedBySize (cfg : Config) (r : Run) (timestamp : Int) (d : SpuData) : Prop :=
  (examine cfg r timestamp d).conv_subs = r.conv_subs ∧
  (examine cfg r timestamp d).sub_counter = r.sub_counter ∧
  (examine cfg r timestamp d).diag =
    r.diag ++ [Diag.imageTooSmall r.sub_counter d.image_size d.width d.height]

/-- The iteration for a unit reaches line 188: one entry with the unit's
start_pts and end_pts is appended to the record. -/
def accepted (cfg : Config) (r : Run) (timestamp : Int) (d : SpuData) : Prop :=
  ∃ text, (examine cfg r timestamp d).conv_subs =
    r.conv_subs ++ [⟨d.start_pts, d.end_pts, some text⟩]

/-- The start_pts of the most recently appended entry, if any. -/
def lastAccepted (r : Run) : Option Nat := r.conv_subs.getLast?.map (fun e => e.start_pts)

/-! ## Concrete inputs -/

/-- A decoder that replays a script: each `spudec_assemble` call makes the next
scripted unit the current one. -/
def scriptedSpu : Spudec (List SpuData × SpuData) where
  assemble := fun s _ _ _ =>
    match s.1 with
    | [] => s
    | d :: ds => (ds, d)
  heartbeat := fun s _ => s
  get_data := fun s => s.2

/-- Quiet settings with a recogniser that always reads the text "A". -/
def quietConfig : Config := ⟨0, fun _ _ _ _ => some ['A']⟩

/-- Quiet settings with a recogniser that always fails. -/
def failingConfig : Config := ⟨0, fun _ _ _ _ => none⟩

/-- A unit with the given times and dimensions and an empty image. -/
def unitOf (start_pts end_pts width height : Nat) : SpuData :=
  ⟨[], 0, width, height, width, start_pts, end_pts⟩

/-- A packet of one byte with the given time stamp. -/
def packetAt (timestamp : Int) : Packet := ⟨1, [0], timestamp⟩

/-! ## Fields of pts2srt and the order of its texts -/

/-- The values `h`, `m`, `s` and the final `ms` that `pts2srt` passes to `snprintf`. -/
structure SrtFields where
  h : Nat
  m : Nat
  s : Nat
  ms : Nat
deriving DecidableEq, Repr

/-- The locals of `pts2srt` after line 53. -/
def pts2srtFields (pts : Nat) : SrtFields :=
  let ms := pts / 90
  let h := ms / (3600 * 1000)
  let ms := usub ms (umul (umul h 3600) 1000)
  let m := ms / (60 * 1000)
  let ms := usub ms (umul (umul m 60) 1000)
  let s := ms / 1000
  let ms := ms % 1000
  ⟨h, m, s, ms⟩

/-- The whole text the format of line 57 produces, before `snprintf` cuts it to the buffer. -/
def pts2srtFormatted (pts : Nat) : List Char :=
  let f := pts2srtFields pts
  printf_0d 2 (asInt f.h) ++ ':' :: printf_0d 2 (asInt f.m) ++ ':' :: printf_0d 2 (asInt f.s)
    ++ ',' :: printf_0d 3 (asInt f.ms)

/-- Strict lexicographic order of two texts, compared character code by character code. -/
def lexLt : List Char → List Char → Bool
  | [], [] => false
  | [], _ :: _ => true
  | _ :: _, [] => false
  | a :: as, b :: bs => decide (a.toNat < b.toNat) || (decide (a.toNat = b.toNat) && lexLt as bs)

/-- Lexicographic order of two texts: equal, or strictly below. -/
def lexLe (x y : List Char) : Bool := decide (x = y) || lexLt x y

/-! ## Observing the calls of the decoder -/

/-- A decoder that behaves as `S` and keeps, next to the state of `S`, the list
of the `spudec_assemble` calls made so far (each call as the packet it was given). -/
def recording {σ : Type} (S : Spudec σ) : Spudec (σ × List Packet) where
  assemble := fun s packet len timestamp =>
    (S.assemble s.1 packet len timestamp, s.2 ++ [⟨len, packet, timestamp⟩])
  heartbeat := fun s timestamp => (S.heartbeat s.1 timestamp, s.2)
  get_data := fun s => S.get_data s.1

/-! ## dump_pgm (lines 62-75) -/

/-- A file written by `dump_pgm`: its name and its bytes. -/
structure PgmFile where
  name : List Char
  content : List Nat
deriving DecidableEq, Repr

/-- The name built in `buf` (lines 65-66). -/
def pgmName (filename : List Char) (counter : Nat) : List Char :=
  snprintf 500 (filename ++ '-' :: printf_0u 4 counter ++ ".pgm".toList)

/-- The header printed by line 69. -/
def pgmHeader (width height : Nat) : List Char :=
  "P5\n".toList ++ printf_u width ++ ' ' :: printf_u height ++ ' ' :: printf_u 255 ++ ['\n']

/-- The for loop of lines 70-72 from index `i`, with the bytes written so far;
`none` when the loop has not ended after `fuel` tests of its condition. -/
def pgmRows (width stride : Nat) (image : List Nat) (image_size : Nat) :
    Nat → Nat → List Nat → Option (List Nat)
  | 0, _, _ => none
  | fuel + 1, i, written =>
    if i < image_size then
      pgmRows width stride image image_size fuel ((i + stride) % U32)
        (written ++ (image.drop i).take width)
    else some written

/-- The function `dump_pgm`: the files it leaves behind (none when `fopen` fails),
or `none` when its loop has not ended within `fuel` steps. `fopen` tells whether
the file of a given name can be opened for writing. -/
def dump_pgm (fopen : List Char → Bool) (fuel : Nat) (filename : List Char)
    (counter width height stride : Nat) (image : List Nat) (image_size : Nat) :
    Option (List PgmFile) :=
  let buf := pgmName filename counter
  if fopen buf then
    match pgmRows width stride image image_size fuel 0
        ((pgmHeader width height).map Char.toNat) with
    | none => none
    | some content => some [⟨buf, content⟩]
  else some []

/-- Row `r` of an image: the `width` bytes from offset `r * stride`. -/
def pgmRow (width stride : Nat) (image : List Nat) (r : Nat) : List Nat :=
  (image.drop (r * stride)).take width

/-! # Theorems -/

/-! ## Timestamp converter -/

theorem printf_0d_two : ∀ n < 100, printf_0d 2 (asInt n) = pad2 n := by decide

set_option maxRecDepth 100000 in
theorem printf_0d_three : ∀ n < 1000, printf_0d 3 (asInt n) = pad3 n := by decide

theorem hours_rest (ms : Nat) :
    usub ms (umul (umul (ms / (3600 * 1000)) 3600) 1000) = ms % 3600000 := by
  simp only [usub, umul, U32]
  omega

theorem minutes_rest (ms : Nat) :
    usub ms (umul (umul (ms / (60 * 1000)) 60) 1000) = ms % 60000 := by
  simp only [usub, umul, U32]
  omega

theorem pts2srtChars_eq (t : Nat) (ht : t < 2 ^ 32) :
    pts2srtChars t = pad2 (t / 90 / 3600000) ++ ':' :: pad2 (t / 90 % 3600000 / 60000) ++ ':' ::
      pad2 (t / 90 % 60000 / 1000) ++ ',' :: pad3 (t / 90 % 1000) := by
  have h1 := hours_rest (t / 90)
  have h2 := minutes_rest (t / 90 % 3600000)
  have e1 : t / 90 % 3600000 % 60000 = t / 90 % 60000 := by omega
  have e2 : t / 90 % 60000 % 1000 = t / 90 % 1000 := by omega
  unfold pts2srtChars
  simp only [h1, h2, e1, e2]
  rw [printf_0d_two _ (by omega), printf_0d_two _ (by omega), printf_0d_two _ (by omega),
    printf_0d_three _ (by omega)]
  simp [snprintf, length, pad2, pad3]

/-- C1: for every tick count of the 32 bit range, pts2srt yields the text
HH:MM:SS,mmm of the documented formula (truncating division by 90, fields zero
padded to 2, 2, 2 and 3 digits); the two documented examples hold. -/
theorem pts2srt_matches_formula (t : Nat) (ht : t ≤ 2 ^ 32 - 1) :
    pts2srt t = srtFormula t ∧ pts2srt 8110 = "00:00:00,090" ∧
      pts2srt 324000090 = "01:00:00,001" := by
  refine ⟨?_, by decide, by decide⟩
  unfold pts2srt srtFormula
  rw [pts2srtChars_eq t (by omega)]

theorem pts2srt_matches_formula_witness :
    pts2srt 4294967295 = srtFormula 4294967295 ∧ pts2srt 8110 = "00:00:00,090" ∧
      pts2srt 324000090 = "01:00:00,001" :=
  pts2srt_matches_formula 4294967295 (by decide)

/-! ## The backfill pass -/

theorem getElem?_at_length {α : Type} (done rest : List α) (e : α) :
    (done ++ e :: rest)[done.length]? = some e := by
  rw [List.getElem?_append_right (Nat.le_refl _)]
  simp

theorem getElem?_after_length {α : Type} (done rest : List α) (e : α) :
    (done ++ e :: rest)[done.length + 1]? = rest[0]? := by
  rw [List.getElem?_append_right (by omega)]
  simp

theorem set_at_length {α : Type} (done rest : List α) (e e1 : α) :
    (done ++ e :: rest).set done.length e1 = done ++ e1 :: rest := by
  induction done with
  | nil => rfl
  | cons d ds ih => simp [List.set, ih]

theorem backfillAt_at (done rest : List CandidateEvent) (e : CandidateEvent) :
    backfillAt (done ++ e :: rest) done.length =
      done ++ (match rest with
        | [] => e
        | next :: _ =>
          if e.endPts = EndPts.Open then { e with endPts := EndPts.Concrete next.startPts } else e)
        :: rest := by
  unfold backfillAt
  simp only [getElem?_at_length, getElem?_after_length, set_at_length]
  cases rest with
  | nil => simp
  | cons n rest =>
    by_cases he : e.endPts = EndPts.Open
    · simp [he]
    · simp [he]

theorem backfillScan_eq : ∀ (todo done : List CandidateEvent),
    backfillScan todo.length done.length (done ++ todo) = done ++ backfilled todo
  | [], done => by simp [backfillScan, backfilled]
  | e :: rest, done => by
    simp only [List.length_cons, backfillScan]
    rw [backfillAt_at done rest e]
    have ih := fun e1 => backfillScan_eq rest (done ++ [e1])
    simp only [List.length_append, List.length_cons, List.length_nil, List.append_assoc,
      List.singleton_append, Nat.zero_add] at ih
    cases rest with
    | nil => simp [backfillScan, backfilled]
    | cons n rest =>
      simp only [ih, backfilled]

theorem backfill_eq (events : List CandidateEvent) : backfill events = backfilled events := by
  have := backfillScan_eq events []
  simpa [backfill] using this

theorem backfilled_length : ∀ events : List CandidateEvent,
    (backfilled events).length = events.length
  | [] => rfl
  | [_] => rfl
  | _ :: n :: rest => by simp [backfilled, backfilled_length (n :: rest)]

theorem backfilled_getElem? : ∀ (events : List CandidateEvent) (i : Nat),
    (backfilled events)[i]? =
      match events[i]?, events[i + 1]? with
      | some e, some next =>
        some (if e.endPts = EndPts.Open then { e with endPts := EndPts.Concrete next.startPts }
          else e)
      | some e, none => some e
      | none, _ => none
  | [], i => by simp [backfilled]
  | [e], i => by cases i <;> simp [backfilled]
  | e :: n :: rest, i => by
    cases i with
    | zero => simp [backfilled]
    | succ j =>
      have ih := backfilled_getElem? (n :: rest) j
      simp only [backfilled, List.getElem?_cons_succ] at ih ⊢
      exact ih

/-- C2: the backfill pass returns a list of the same length with every startPts
unchanged; an entry other than the last whose end is Open gets the startPts of
the entry that follows it as its end, and every other entry (concrete end, or
last) is unchanged; [(0,Open),(100,Open),(250,400)] becomes
[(0,100),(100,250),(250,400)]. -/
theorem backfill_pass (events : List CandidateEvent) :
    (backfill events).length = events.length ∧
    (backfill events).map (fun e => e.startPts) = events.map (fun e => e.startPts) ∧
    (∀ i e next, events[i]? = some e → events[i + 1]? = some next → e.endPts = EndPts.Open →
      (backfill events)[i]? = some { e with endPts := EndPts.Concrete next.startPts }) ∧
    (∀ i e, events[i]? = some e → (e.endPts ≠ EndPts.Open ∨ i + 1 = events.length) →
      (backfill events)[i]? = some e) ∧
    (∀ t0 t1 t2, backfill [⟨0, EndPts.Open, t0⟩, ⟨100, EndPts.Open, t1⟩,
        ⟨250, EndPts.Concrete 400, t2⟩] =
      [⟨0, EndPts.Concrete 100, t0⟩, ⟨100, EndPts.Concrete 250, t1⟩,
        ⟨250, EndPts.Concrete 400, t2⟩]) := by
  refine ⟨by rw [backfill_eq, backfilled_length], ?_, ?_, ?_, ?_⟩
  · rw [backfill_eq]
    apply List.ext_getElem?
    intro i
    simp only [List.getElem?_map, backfilled_getElem?]
    cases h0 : events[i]? with
    | none => simp
    | some e =>
      cases h1 : events[i + 1]? with
      | none => simp
      | some n => by_cases he : e.endPts = EndPts.Open <;> simp [he]
  · intro i e next h0 h1 he
    rw [backfill_eq, backfilled_getElem?, h0, h1]
    simp [he]
  · intro i e h0 h
    rw [backfill_eq, backfilled_getElem?, h0]
    cases h1 : events[i + 1]? with
    | none => rfl
    | some n =>
      rcases h with h | h
      · simp [h]
      · have : i + 1 < events.length := by
          rcases List.getElem?_eq_some.mp h1 with ⟨hlt, _⟩
          exact hlt
        omega
  · intro t0 t1 t2
    rw [backfill_eq]
    simp [backfilled]

/-! ## The packet loop -/

theorem packetLoop_eq_examineAll {σ : Type} (S : Spudec σ) (cfg : Config) :
    ∀ (pkts : List Packet) (spu : σ) (r : Run),
      (packetLoop S cfg pkts (spu, r)).2 = examineAll cfg r (completedUnits S spu pkts)
  | [], _, _ => rfl
  | p :: ps, spu, r => by
    by_cases hl : p.len > 0
    · by_cases ht : p.timestamp ≥ 0
      · simp only [packetLoop, completedUnits, loopBody, hl, ht, if_true, examineAll,
          List.foldl_cons]
        exact packetLoop_eq_examineAll S cfg ps _ _
      · simp only [packetLoop, completedUnits, loopBody, hl, ht, if_true, if_false]
        exact packetLoop_eq_examineAll S cfg ps _ _
    · simp [packetLoop, completedUnits, hl, examineAll]

theorem examineAll_append (cfg : Config) (r : Run) (us vs : List (Int × SpuData)) :
    examineAll cfg r (us ++ vs) = examineAll cfg (examineAll cfg r us) vs := by
  simp [examineAll, List.foldl_append]

theorem examine_duplicate (cfg : Config) (r : Run) (ts : Int) (d : SpuData)
    (h : d.start_pts = r.last_start_pts) : examine cfg r ts d = r := by
  simp [examine, h]

theorem examine_small (cfg : Config) (r : Run) (ts : Int) (d : SpuData)
    (h : d.start_pts ≠ r.last_start_pts) (hs : d.width < 9 ∨ d.height < 1) :
    examine cfg r ts d =
      { r with
        last_start_pts := d.start_pts
        diag := r.diag ++ [Diag.imageTooSmall r.sub_counter d.image_size d.width d.height] } := by
  have hs1 : d.width < min_width ∨ d.height < min_height := hs
  unfold examine
  rw [if_neg h]
  dsimp only
  rw [if_pos hs1]

theorem examine_accept (cfg : Config) (r : Run) (ts : Int) (d : SpuData)
    (h : d.start_pts ≠ r.last_start_pts) (hs : ¬(d.width < 9 ∨ d.height < 1)) :
    (examine cfg r ts d).conv_subs =
        r.conv_subs ++ [⟨d.start_pts, d.end_pts, some (recognisedText cfg d)⟩] ∧
      (examine cfg r ts d).sub_counter = uinc r.sub_counter ∧
      (examine cfg r ts d).last_start_pts = d.start_pts := by
  have hs1 : ¬(d.width < min_width ∨ d.height < min_height) := hs
  unfold examine
  rw [if_neg h]
  dsimp only
  rw [if_neg hs1]
  split <;> simp

theorem examine_last_start_pts (cfg : Config) (r : Run) (ts : Int) (d : SpuData) :
    (examine cfg r ts d).last_start_pts = d.start_pts := by
  by_cases h : d.start_pts = r.last_start_pts
  · rw [examine_duplicate cfg r ts d h, h]
  · by_cases hs : d.width < 9 ∨ d.height < 1
    · rw [examine_small cfg r ts d h hs]
    · exact (examine_accept cfg r ts d h hs).2.2

theorem examineAll_snoc_last_start_pts (cfg : Config) (r : Run) (us : List (Int × SpuData))
    (prev : Int × SpuData) :
    (examineAll cfg r (us ++ [prev])).last_start_pts = prev.2.start_pts := by
  rw [examineAll_append]
  simp [examineAll, examine_last_start_pts]

theorem discardedAsDuplicate_iff (cfg : Config) (r : Run) (ts : Int) (d : SpuData) :
    discardedAsDuplicate cfg r ts d ↔ d.start_pts = r.last_start_pts := by
  constructor
  · intro h
    have := examine_last_start_pts cfg r ts d
    rw [h] at this
    exact this.symm
  · exact examine_duplicate cfg r ts d

/-- C3 (amended): after at least one completed unit has been examined, a completed
unit is discarded by the deduplication step exactly when its start_pts equals the
start_pts of the completed unit examined immediately before it, whatever happened
to that unit (accepted, rejected by the size check or itself discarded). -/
theorem dedup_compares_with_previous_unit (cfg : Config) (us : List (Int × SpuData))
    (prev u : Int × SpuData) :
    discardedAsDuplicate cfg (examineAll cfg Run.init (us ++ [prev])) u.1 u.2 ↔
      u.2.start_pts = prev.2.start_pts := by
  rw [discardedAsDuplicate_iff, examineAll_snoc_last_start_pts]

/-- C3 as stated fails: a unit is discarded as a duplicate although nothing has
been accepted yet, and a unit with the start_pts of the most recently accepted
entry is not discarded. -/
theorem dedup_not_against_last_accepted :
    (discardedAsDuplicate quietConfig (examineAll quietConfig Run.init [(0, unitOf 5 9 5 1)])
        0 (unitOf 5 9 9 1) ∧
      lastAccepted (examineAll quietConfig Run.init [(0, unitOf 5 9 5 1)]) = none) ∧
    (¬ discardedAsDuplicate quietConfig
        (examineAll quietConfig Run.init [(0, unitOf 1 2 9 1), (0, unitOf 2 3 5 1)])
        0 (unitOf 1 2 9 1) ∧
      lastAccepted (examineAll quietConfig Run.init [(0, unitOf 1 2 9 1), (0, unitOf 2 3 5 1)])
        = some 1) := by
  unfold discardedAsDuplicate lastAccepted
  decide

/-- C4: a completed unit that is not discarded as a duplicate is rejected by the
size check exactly when width < 9 or height < 1, and is accepted otherwise; width 5
with height 1 is rejected, width 9 with height 1 is accepted. -/
theorem size_filter_threshold (cfg : Config) (r : Run) (ts : Int) (d : SpuData)
    (h : ¬ discardedAsDuplicate cfg r ts d) :
    (rejectedBySize cfg r ts d ↔ (d.width < 9 ∨ d.height < 1)) ∧
    (accepted cfg r ts d ↔ ¬(d.width < 9 ∨ d.height < 1)) ∧
    (d.width = 5 → d.height = 1 → rejectedBySize cfg r ts d ∧ ¬ accepted cfg r ts d) ∧
    (d.width = 9 → d.height = 1 → accepted cfg r ts d ∧ ¬ rejectedBySize cfg r ts d) := by
  have hne : d.start_pts ≠ r.last_start_pts := fun e =>
    h ((discardedAsDuplicate_iff cfg r ts d).mpr e)
  have hrej : rejectedBySize cfg r ts d ↔ (d.width < 9 ∨ d.height < 1) := by
    constructor
    · intro hr
      by_contra hs
      have ha := (examine_accept cfg r ts d hne hs).1
      rw [hr.1] at ha
      have := congrArg List.length ha
      simp at this
    · intro hs
      simp [rejectedBySize, examine_small cfg r ts d hne hs]
  have hacc : accepted cfg r ts d ↔ ¬(d.width < 9 ∨ d.height < 1) := by
    constructor
    · rintro ⟨text, ha⟩ hs
      rw [examine_small cfg r ts d hne hs] at ha
      have := congrArg List.length ha
      simp at this
    · intro hs
      exact ⟨_, (examine_accept cfg r ts d hne hs).1⟩
  refine ⟨hrej, hacc, ?_, ?_⟩
  · intro hw hh
    have hs : d.width < 9 ∨ d.height < 1 := by omega
    exact ⟨hrej.mpr hs, fun ha => hacc.mp ha hs⟩
  · intro hw hh
    have hs : ¬(d.width < 9 ∨ d.height < 1) := by omega
    exact ⟨hacc.mpr hs, fun hr => hs (hrej.mp hr)⟩

theorem size_filter_threshold_witness :
    ¬ discardedAsDuplicate quietConfig Run.init 0 (unitOf 7 8 9 1) ∧
    (accepted quietConfig Run.init 0 (unitOf 7 8 9 1) ↔
      ¬((unitOf 7 8 9 1).width < 9 ∨ (unitOf 7 8 9 1).height < 1)) :=
  ⟨by unfold discardedAsDuplicate; decide,
    (size_filter_threshold quietConfig Run.init 0 (unitOf 7 8 9 1)
      (by unfold discardedAsDuplicate; decide)).2.1⟩

theorem examine_pair (cfg : Config) (r : Run) (ts1 ts2 : Int) (d1 d2 : SpuData) (p : Nat)
    (h1 : d1.start_pts = p) (h2 : d2.start_pts = p)
    (hs1 : ¬(d1.width < 9 ∨ d1.height < 1)) :
    (r.last_start_pts ≠ p →
      (examine cfg (examine cfg r ts1 d1) ts2 d2).conv_subs =
        r.conv_subs ++ [⟨p, d1.end_pts, some (recognisedText cfg d1)⟩]) ∧
    (r.last_start_pts = p →
      (examine cfg (examine cfg r ts1 d1) ts2 d2).conv_subs = r.conv_subs) := by
  constructor
  · intro hne
    have hd : d1.start_pts ≠ r.last_start_pts := by rw [h1]; exact fun e => hne e.symm
    have hl := examine_last_start_pts cfg r ts1 d1
    rw [examine_duplicate cfg _ ts2 d2 (by rw [hl, h1, h2]), (examine_accept cfg r ts1 d1 hd hs1).1,
      h1]
  · intro he
    rw [examine_duplicate cfg r ts1 d1 (by rw [h1, he]),
      examine_duplicate cfg r ts2 d2 (by rw [h2, he])]

/-- C5 (amended): two consecutive completed units with the same start_pts p, both
of at least the minimum size, append exactly one entry (for the first of them)
when the completed unit examined immediately before them has a start_pts other
than p, and none when that unit has start_pts p; as the first two units of a run
they append exactly one entry when p is not 0. -/
theorem equal_start_pair_appends (cfg : Config) (us : List (Int × SpuData))
    (prev : Int × SpuData) (ts1 ts2 : Int) (d1 d2 : SpuData) (p : Nat)
    (h1 : d1.start_pts = p) (h2 : d2.start_pts = p)
    (hw1 : 9 ≤ d1.width) (hh1 : 1 ≤ d1.height) (hw2 : 9 ≤ d2.width) (hh2 : 1 ≤ d2.height) :
    (prev.2.start_pts ≠ p →
      (examineAll cfg Run.init ((us ++ [prev]) ++ [(ts1, d1), (ts2, d2)])).conv_subs =
        (examineAll cfg Run.init (us ++ [prev])).conv_subs ++
          [⟨p, d1.end_pts, some (recognisedText cfg d1)⟩]) ∧
    (prev.2.start_pts = p →
      (examineAll cfg Run.init ((us ++ [prev]) ++ [(ts1, d1), (ts2, d2)])).conv_subs =
        (examineAll cfg Run.init (us ++ [prev])).conv_subs) ∧
    (p ≠ 0 →
      (examineAll cfg Run.init [(ts1, d1), (ts2, d2)]).conv_subs =
        [⟨p, d1.end_pts, some (recognisedText cfg d1)⟩]) := by
  have hs1 : ¬(d1.width < 9 ∨ d1.height < 1) := by omega
  have _hs2 : ¬(d2.width < 9 ∨ d2.height < 1) := by omega
  have key := fun r => examine_pair cfg r ts1 ts2 d1 d2 p h1 h2 hs1
  refine ⟨?_, ?_, ?_⟩
  · intro hne
    rw [examineAll_append cfg Run.init (us ++ [prev])]
    exact (key _).1 (by rw [examineAll_snoc_last_start_pts]; exact hne)
  · intro he
    rw [examineAll_append cfg Run.init (us ++ [prev])]
    exact (key _).2 (by rw [examineAll_snoc_last_start_pts]; exact he)
  · intro hp
    have := (key Run.init).1 (fun e => hp e.symm)
    simpa [examineAll, Run.init] using this

theorem equal_start_pair_appends_witness :
    (examineAll quietConfig Run.init [(0, unitOf 7 8 9 1), (1, unitOf 7 8 9 1)]).conv_subs =
      [⟨7, 8, some (recognisedText quietConfig (unitOf 7 8 9 1))⟩] :=
  (equal_start_pair_appends quietConfig [] (0, unitOf 3 4 9 1) 0 1 (unitOf 7 8 9 1)
    (unitOf 7 8 9 1) 7 rfl rfl (by decide) (by decide) (by decide) (by decide)).2.2 (by decide)

/-- C5 as stated fails: after a unit with start_pts 7 that the size check rejected,
two consecutive units with start_pts 7 and adequate size append no entry. -/
theorem equal_start_pair_appends_none :
    (examineAll quietConfig Run.init [(0, unitOf 7 8 5 1)]).conv_subs = [] ∧
    (examineAll quietConfig Run.init
      [(0, unitOf 7 8 5 1), (0, unitOf 7 8 9 1), (0, unitOf 7 8 9 1)]).conv_subs = [] := by
  decide

/-- C6 (evaluation at the failing input): for three packets with time stamps 0,
9000 and 18000 completing units of 9 by 1 pixels with start_pts 0, 9000 and
18000, the loop skips the unit with start_pts 0: only two units reach line 188
(the counter ends at 3), those starting at 00:00:00,100 and 00:00:00,200. -/
theorem start_zero_stream_accepts_two_units :
    (packetLoop scriptedSpu quietConfig [packetAt 0, packetAt 9000, packetAt 18000]
      (([unitOf 0 UINT_MAX 9 1, unitOf 9000 UINT_MAX 9 1, unitOf 18000 UINT_MAX 9 1],
        unitOf 0 0 0 0), Run.init)).2.sub_counter = 3 ∧
    (packetLoop scriptedSpu quietConfig [packetAt 0, packetAt 9000, packetAt 18000]
      (([unitOf 0 UINT_MAX 9 1, unitOf 9000 UINT_MAX 9 1, unitOf 18000 UINT_MAX 9 1],
        unitOf 0 0 0 0), Run.init)).2.conv_subs.map (fun e => pts2srt e.start_pts) =
      ["00:00:00,100", "00:00:00,200"] ∧
    discardedAsDuplicate quietConfig Run.init 0 (unitOf 0 UINT_MAX 9 1) ∧
    pts2srt 0 = "00:00:00,000" := by
  unfold discardedAsDuplicate
  decide

theorem examineAll_increasing (cfg : Config) :
    ∀ (us : List (Int × SpuData)) (r : Run),
      (us.map (fun u => u.2.start_pts)).Pairwise (· ≤ ·) →
      (∀ u ∈ us, r.last_start_pts ≤ u.2.start_pts) →
      (∀ e ∈ r.conv_subs, e.start_pts ≤ r.last_start_pts) →
      (r.conv_subs.map (fun e => e.start_pts)).Pairwise (· < ·) →
      ((examineAll cfg r us).conv_subs.map (fun e => e.start_pts)).Pairwise (· < ·)
  | [], _, _, _, _, hs => hs
  | u :: us, r, hmono, hlast, hconv, hs => by
    simp only [List.map_cons, List.pairwise_cons, List.mem_map, forall_exists_index, and_imp,
      forall_apply_eq_imp_iff₂] at hmono
    have hu : r.last_start_pts ≤ u.2.start_pts := hlast u (List.mem_cons_self _ _)
    have hl := examine_last_start_pts cfg r u.1 u.2
    have step : examineAll cfg r (u :: us) = examineAll cfg (examine cfg r u.1 u.2) us := rfl
    rw [step]
    apply examineAll_increasing cfg us _ hmono.2
    · intro v hv
      rw [hl]
      exact hmono.1 v hv
    · by_cases hd : u.2.start_pts = r.last_start_pts
      · rw [examine_duplicate cfg r u.1 u.2 hd]
        exact hconv
      · by_cases hsz : u.2.width < 9 ∨ u.2.height < 1
        · rw [examine_small cfg r u.1 u.2 hd hsz]
          intro e he
          exact Nat.le_trans (hconv e he) hu
        · intro e he
          rw [hl]
          rw [(examine_accept cfg r u.1 u.2 hd hsz).1] at he
          rcases List.mem_append.mp he with he | he
          · exact Nat.le_trans (hconv e he) hu
          · simp only [List.mem_singleton] at he
            rw [he]
    · by_cases hd : u.2.start_pts = r.last_start_pts
      · rw [examine_duplicate cfg r u.1 u.2 hd]
        exact hs
      · by_cases hsz : u.2.width < 9 ∨ u.2.height < 1
        · rw [examine_small cfg r u.1 u.2 hd hsz]
          exact hs
        · rw [(examine_accept cfg r u.1 u.2 hd hsz).1, List.map_append, List.pairwise_append]
          refine ⟨hs, by simp, ?_⟩
          intro a ha b hb
          simp only [List.map_cons, List.map_nil, List.mem_singleton] at hb
          rcases List.mem_map.mp ha with ⟨e, he, rfl⟩
          have := hconv e he
          omega

/-- C7 (amended): when the start_pts of the units the decoder returns are in
non-decreasing order of arrival, the entries the loop appends are in strictly
increasing start_pts order. -/
theorem accepted_strictly_increasing {σ : Type} (S : Spudec σ) (cfg : Config) (spu : σ)
    (pkts : List Packet)
    (hmono : ((completedUnits S spu pkts).map (fun u => u.2.start_pts)).Pairwise (· ≤ ·)) :
    ((packetLoop S cfg pkts (spu, Run.init)).2.conv_subs.map
      (fun e => e.start_pts)).Pairwise (· < ·) := by
  rw [packetLoop_eq_examineAll]
  exact examineAll_increasing cfg _ Run.init hmono (fun _ _ => Nat.zero_le _)
    (by simp [Run.init]) (by simp [Run.init])

theorem accepted_strictly_increasing_witness :
    ((packetLoop scriptedSpu quietConfig [packetAt 0, packetAt 1]
      (([unitOf 3 4 9 1, unitOf 5 6 9 1], unitOf 0 0 0 0), Run.init)).2.conv_subs.map
      (fun e => e.start_pts)).Pairwise (· < ·) :=
  accepted_strictly_increasing scriptedSpu quietConfig
    ([unitOf 3 4 9 1, unitOf 5 6 9 1], unitOf 0 0 0 0) [packetAt 0, packetAt 1] (by decide)

/-- C7 as stated fails: when the decoder returns a unit with start_pts 5 and then
one with start_pts 3, both are appended, in that order. -/
theorem accepted_not_increasing :
    (packetLoop scriptedSpu quietConfig [packetAt 0, packetAt 1]
      (([unitOf 5 6 9 1, unitOf 3 4 9 1], unitOf 0 0 0 0), Run.init)).2.conv_subs.map
      (fun e => e.start_pts) = [5, 3] ∧
    ¬ ((packetLoop scriptedSpu quietConfig [packetAt 0, packetAt 1]
      (([unitOf 5 6 9 1, unitOf 3 4 9 1], unitOf 0 0 0 0), Run.init)).2.conv_subs.map
      (fun e => e.start_pts)).Chain' (· < ·) := by
  have h : (packetLoop scriptedSpu quietConfig [packetAt 0, packetAt 1]
      (([unitOf 5 6 9 1, unitOf 3 4 9 1], unitOf 0 0 0 0), Run.init)).2.conv_subs.map
      (fun e => e.start_pts) = [5, 3] := by decide
  rw [h]
  simp

/-! ## The writer of the spec on the accepted units -/

theorem examineAll_conv_subs (cfg : Config) :
    ∀ (us : List (Int × SpuData)) (r : Run),
      (examineAll cfg r us).conv_subs = r.conv_subs ++
        (passedUnits r.last_start_pts us).map
          (fun d => ⟨d.start_pts, d.end_pts, some (recognisedText cfg d)⟩)
  | [], r => by simp [examineAll, passedUnits]
  | u :: us, r => by
    have step : examineAll cfg r (u :: us) = examineAll cfg (examine cfg r u.1 u.2) us := rfl
    rw [step, examineAll_conv_subs cfg us, examine_last_start_pts]
    by_cases hd : u.2.start_pts = r.last_start_pts
    · rw [examine_duplicate cfg r u.1 u.2 hd]
      simp [passedUnits, hd]
    · by_cases hs : u.2.width < 9 ∨ u.2.height < 1
      · rw [examine_small cfg r u.1 u.2 hd hs]
        simp only [passedUnits, hd, if_false, if_pos hs]
      · rw [(examine_accept cfg r u.1 u.2 hd hs).1]
        simp only [passedUnits, hd, if_false, if_neg hs, List.map_cons, List.append_assoc,
          List.singleton_append]

theorem resolveLast_length (policy : Option Nat) : ∀ events : List CandidateEvent,
    (resolveLast policy events).length = events.length
  | [] => rfl
  | [e] => by
    unfold resolveLast
    split <;> rfl
  | _ :: n :: rest => by simp [resolveLast, resolveLast_length policy (n :: rest)]

theorem resolveLast_start_text (policy : Option Nat) : ∀ events : List CandidateEvent,
    (resolveLast policy events).map (fun e => (e.startPts, e.text)) =
      events.map (fun e => (e.startPts, e.text))
  | [] => rfl
  | [e] => by
    unfold resolveLast
    split <;> rfl
  | e :: n :: rest => by
    simp only [resolveLast, List.map_cons, resolveLast_start_text policy (n :: rest)]

theorem backfilled_start_text : ∀ events : List CandidateEvent,
    (backfilled events).map (fun e => (e.startPts, e.text)) =
      events.map (fun e => (e.startPts, e.text))
  | [] => rfl
  | [_] => rfl
  | e :: n :: rest => by
    have ih := backfilled_start_text (n :: rest)
    by_cases he : e.endPts = EndPts.Open <;> simp [backfilled, he, ih]

theorem writeFrom_length : ∀ (k : Nat) (events : List CandidateEvent),
    (writeFrom k events).length = events.length
  | _, [] => rfl
  | k, _ :: es => by simp [writeFrom, writeFrom_length (k + 1) es]

theorem writeFrom_numbers : ∀ (k : Nat) (events : List CandidateEvent),
    (writeFrom k events).map (fun w => w.sequenceNumber) =
      (List.range events.length).map (fun i => k + i)
  | _, [] => rfl
  | k, _ :: es => by
    simp only [writeFrom, List.map_cons, List.length_cons, List.range_succ_eq_map,
      writeFrom_numbers (k + 1) es, List.map_map, Nat.add_zero]
    congr 1
    apply List.map_congr_left
    intro i _
    simp only [Function.comp]
    omega

theorem writeFrom_getElem? : ∀ (events : List CandidateEvent) (k i : Nat) (e : CandidateEvent),
    events[i]? = some e →
    ∃ w, (writeFrom k events)[i]? = some w ∧ w.sequenceNumber = k + i ∧
      w.start = pts2srt e.startPts ∧ w.text = e.text
  | [], _, _, _, h => by simp at h
  | c :: cs, k, 0, e, h => by
    simp only [List.getElem?_cons_zero, Option.some.injEq] at h
    subst h
    exact ⟨writtenOf k c, by simp only [writeFrom, List.getElem?_cons_zero], rfl, rfl, rfl⟩
  | c :: cs, k, i + 1, e, h => by
    simp only [List.getElem?_cons_succ] at h
    obtain ⟨w, hw, hn, hs, ht⟩ := writeFrom_getElem? cs (k + 1) i e h
    exact ⟨w, by simpa [writeFrom] using hw, by omega, hs, ht⟩

theorem eventPipeline_events {σ : Type} (S : Spudec σ) (cfg : Config) (policy : Option Nat)
    (spu : σ) (pkts : List Packet) :
    (resolveLast policy (backfill ((packetLoop S cfg pkts (spu, Run.init)).2.conv_subs.map
      toEvent))).map (fun e => (e.startPts, e.text)) =
      (passedUnits 0 (completedUnits S spu pkts)).map
        (fun d => (d.start_pts, recognisedText cfg d)) := by
  rw [resolveLast_start_text, backfill_eq, backfilled_start_text, packetLoop_eq_examineAll,
    examineAll_conv_subs]
  simp [Run.init, toEvent, Function.comp]

/-- C8: the entries the pipeline writes are numbered 1, 2, ..., N in list order,
N being the number of units that passed the duplicate test and the size check:
the entry at position i (from 0) has number i + 1 and carries the start time
and the text of the i-th such unit, however many units were skipped in between
(a stream with a rejected and a duplicate unit among two accepted ones is
written as entries 1 and 2). -/
theorem written_numbers_contiguous {σ : Type} (S : Spudec σ) (cfg : Config)
    (policy : Option Nat) (spu : σ) (pkts : List Packet) :
    (eventPipeline S cfg policy spu pkts).length =
      (passedUnits 0 (completedUnits S spu pkts)).length ∧
    (eventPipeline S cfg policy spu pkts).length =
      (packetLoop S cfg pkts (spu, Run.init)).2.conv_subs.length ∧
    (eventPipeline S cfg policy spu pkts).map (fun w => w.sequenceNumber) =
      (List.range (passedUnits 0 (completedUnits S spu pkts)).length).map (fun i => i + 1) ∧
    (∀ i d, (passedUnits 0 (completedUnits S spu pkts))[i]? = some d →
      ∃ w, (eventPipeline S cfg policy spu pkts)[i]? = some w ∧ w.sequenceNumber = i + 1 ∧
        w.start = pts2srt d.start_pts ∧ w.text = recognisedText cfg d) ∧
    (eventPipeline scriptedSpu quietConfig none
      ([unitOf 4500 UINT_MAX 5 1, unitOf 9000 UINT_MAX 9 1, unitOf 9000 UINT_MAX 9 1,
        unitOf 18000 UINT_MAX 9 1], unitOf 0 0 0 0)
      [packetAt 0, packetAt 1, packetAt 2, packetAt 3]).map
        (fun w => (w.sequenceNumber, w.start)) =
      [(1, "00:00:00,100"), (2, "00:00:00,200")] := by
  have hev := eventPipeline_events S cfg policy spu pkts
  have hlen : (resolveLast policy (backfill ((packetLoop S cfg pkts
      (spu, Run.init)).2.conv_subs.map toEvent))).length =
      (passedUnits 0 (completedUnits S spu pkts)).length := by
    simpa using congrArg List.length hev
  have hrec : (packetLoop S cfg pkts (spu, Run.init)).2.conv_subs.length =
      (passedUnits 0 (completedUnits S spu pkts)).length := by
    rw [packetLoop_eq_examineAll, examineAll_conv_subs]
    simp [Run.init]
  refine ⟨?_, ?_, ?_, ?_, by decide⟩
  · simp only [eventPipeline, writeEvents, writeFrom_length, hlen]
  · simp only [eventPipeline, writeEvents, writeFrom_length, hlen, hrec]
  · simp only [eventPipeline, writeEvents, writeFrom_numbers, hlen]
    apply List.map_congr_left
    intro i _
    omega
  · intro i d hd
    have hi : ((resolveLast policy (backfill ((packetLoop S cfg pkts
        (spu, Run.init)).2.conv_subs.map toEvent))).map (fun e => (e.startPts, e.text)))[i]? =
        some (d.start_pts, recognisedText cfg d) := by
      rw [hev, List.getElem?_map, hd]
      rfl
    rw [List.getElem?_map] at hi
    cases he : (resolveLast policy (backfill ((packetLoop S cfg pkts
        (spu, Run.init)).2.conv_subs.map toEvent)))[i]? with
    | none => rw [he] at hi; simp at hi
    | some e =>
      rw [he] at hi
      simp only [Option.map_some', Option.some.injEq, Prod.mk.injEq] at hi
      obtain ⟨w, hw, hn, hs, ht⟩ := writeFrom_getElem? _ 1 i e he
      exact ⟨w, hw, by omega, by rw [hs, hi.1], by rw [ht, hi.2]⟩

theorem examine_ignores_timestamp (cfg : Config) (r : Run) (ts1 ts2 : Int) (d : SpuData) :
    (examine cfg r ts1 d).conv_subs = (examine cfg r ts2 d).conv_subs ∧
    (examine cfg r ts1 d).sub_counter = (examine cfg r ts2 d).sub_counter ∧
    (examine cfg r ts1 d).last_start_pts = (examine cfg r ts2 d).last_start_pts := by
  by_cases hd : d.start_pts = r.last_start_pts
  · simp [examine_duplicate cfg r _ d hd]
  · by_cases hs : d.width < 9 ∨ d.height < 1
    · simp [examine_small cfg r _ d hd hs]
    · obtain ⟨a1, a2, a3⟩ := examine_accept cfg r ts1 d hd hs
      obtain ⟨b1, b2, b3⟩ := examine_accept cfg r ts2 d hd hs
      rw [a1, a2, a3, b1, b2, b3]
      exact ⟨rfl, rfl, rfl⟩

/-- C9: a completed unit that is not a duplicate and has at least the minimum size
is accepted for every non-negative index time stamp of its packet, and the
appended entry carries the start_pts and end_pts of the unit (index time stamp
1000 with start_pts 1005 records 1005); the entries, the counter and
last_start_pts after the iteration do not depend on the index time stamp. -/
theorem bitstream_start_pts_recorded {σ : Type} (S : Spudec σ) (cfg : Config) (st : σ × Run)
    (p : Packet) (d : SpuData) (hts : 0 ≤ p.timestamp)
    (hd : S.get_data (S.heartbeat (S.assemble st.1 p.packet p.len p.timestamp) p.timestamp) = d)
    (hnd : d.start_pts ≠ st.2.last_start_pts) (hw : 9 ≤ d.width) (hh : 1 ≤ d.height) :
    (loopBody S cfg st p).2.conv_subs =
      st.2.conv_subs ++ [⟨d.start_pts, d.end_pts, some (recognisedText cfg d)⟩] ∧
    accepted cfg st.2 p.timestamp d ∧
    (p.timestamp = 1000 → d.start_pts = 1005 →
      ((loopBody S cfg st p).2.conv_subs.map (fun e => e.start_pts)).getLast? = some 1005) ∧
    (∀ (r : Run) (ts1 ts2 : Int) (u : SpuData), 0 ≤ ts1 → 0 ≤ ts2 →
      (examine cfg r ts1 u).conv_subs = (examine cfg r ts2 u).conv_subs ∧
      (examine cfg r ts1 u).sub_counter = (examine cfg r ts2 u).sub_counter ∧
      (examine cfg r ts1 u).last_start_pts = (examine cfg r ts2 u).last_start_pts) := by
  have hs : ¬(d.width < 9 ∨ d.height < 1) := by omega
  have hacc := (examine_accept cfg st.2 p.timestamp d hnd hs).1
  have hbody : (loopBody S cfg st p).2 = examine cfg st.2 p.timestamp d := by
    have hge : p.timestamp ≥ 0 := hts
    simp only [loopBody, hge, if_true, hd]
  refine ⟨by rw [hbody, hacc], ⟨_, hacc⟩, ?_, ?_⟩
  · intro _ h5
    rw [hbody, hacc, h5]
    simp
  · intro r ts1 ts2 u _ _
    exact examine_ignores_timestamp cfg r ts1 ts2 u

theorem bitstream_start_pts_recorded_witness :
    (loopBody scriptedSpu quietConfig (([unitOf 1005 2000 9 1], unitOf 0 0 0 0), Run.init)
      (packetAt 1000)).2.conv_subs =
      [⟨1005, 2000, some (recognisedText quietConfig (unitOf 1005 2000 9 1))⟩] :=
  (bitstream_start_pts_recorded scriptedSpu quietConfig
    (([unitOf 1005 2000 9 1], unitOf 0 0 0 0), Run.init) (packetAt 1000) (unitOf 1005 2000 9 1)
    (by decide) rfl (by decide) (by decide) (by decide)).1

theorem examineAll_sub_counter (cfg : Config) :
    ∀ (us : List (Int × SpuData)) (r : Run),
      r.sub_counter = (1 + r.conv_subs.length) % U32 →
      (examineAll cfg r us).sub_counter = (1 + (examineAll cfg r us).conv_subs.length) % U32
  | [], _, h => h
  | u :: us, r, h => by
    have step : examineAll cfg r (u :: us) = examineAll cfg (examine cfg r u.1 u.2) us := rfl
    rw [step]
    apply examineAll_sub_counter cfg us
    by_cases hd : u.2.start_pts = r.last_start_pts
    · rw [examine_duplicate cfg r u.1 u.2 hd]
      exact h
    · by_cases hs : u.2.width < 9 ∨ u.2.height < 1
      · rw [examine_small cfg r u.1 u.2 hd hs]
        exact h
      · obtain ⟨a1, a2, _⟩ := examine_accept cfg r u.1 u.2 hd hs
        rw [a1, a2, h]
        simp only [uinc, U32, List.length_append, List.length_cons, List.length_nil]
        omega

/-- C10 (amended): the counter is incremented (modulo 2^32) once for every accepted
unit and stays as it is for a unit discarded as a duplicate or rejected by the
size check; after the loop it has advanced from 1 by the number of accepted
units. -/
theorem counter_counts_accepted_units {σ : Type} (S : Spudec σ) (cfg : Config) (spu : σ)
    (pkts : List Packet) :
    (packetLoop S cfg pkts (spu, Run.init)).2.sub_counter =
      (1 + (packetLoop S cfg pkts (spu, Run.init)).2.conv_subs.length) % U32 ∧
    ∀ (r : Run) (ts : Int) (d : SpuData),
      (discardedAsDuplicate cfg r ts d → (examine cfg r ts d).sub_counter = r.sub_counter) ∧
      (rejectedBySize cfg r ts d → (examine cfg r ts d).sub_counter = r.sub_counter) ∧
      (accepted cfg r ts d → (examine cfg r ts d).sub_counter = uinc r.sub_counter) := by
  constructor
  · rw [packetLoop_eq_examineAll]
    exact examineAll_sub_counter cfg _ Run.init (by simp [Run.init, U32])
  · intro r ts d
    refine ⟨fun h => by rw [h], fun h => h.2.1, ?_⟩
    rintro ⟨text, ha⟩
    by_cases hd : d.start_pts = r.last_start_pts
    · rw [examine_duplicate cfg r ts d hd] at ha
      have := congrArg List.length ha
      simp at this
    · by_cases hs : d.width < 9 ∨ d.height < 1
      · rw [examine_small cfg r ts d hd hs] at ha
        have := congrArg List.length ha
        simp at this
      · exact (examine_accept cfg r ts d hd hs).2.1

/-- C10 as stated fails: in a run where the decoder completes three units (one too
small, one duplicate of it, one accepted) the counter advances from 1 to 2. -/
theorem counter_skips_discarded_units :
    (completedUnits scriptedSpu ([unitOf 5 6 5 1, unitOf 5 6 9 1, unitOf 7 8 9 1], unitOf 0 0 0 0)
      [packetAt 0, packetAt 1, packetAt 2]).length = 3 ∧
    (packetLoop scriptedSpu quietConfig [packetAt 0, packetAt 1, packetAt 2]
      (([unitOf 5 6 5 1, unitOf 5 6 9 1, unitOf 7 8 9 1], unitOf 0 0 0 0), Run.init)).2.sub_counter
      = 2 := by
  decide

/-! ## Calls of the decoder, text recognition and the end of the loop -/

theorem packetLoop_recording {σ : Type} (S : Spudec σ) (cfg : Config) :
    ∀ (pkts : List Packet) (spu : σ) (log : List Packet) (r : Run),
      packetLoop (recording S) cfg pkts ((spu, log), r) =
        (((packetLoop S cfg pkts (spu, r)).1,
          log ++ (pkts.takeWhile (fun p => decide (p.len > 0))).filter
            (fun p => decide (p.timestamp ≥ 0))),
          (packetLoop S cfg pkts (spu, r)).2)
  | [], _, _, _ => by simp [packetLoop]
  | p :: ps, spu, log, r => by
    by_cases hl : p.len > 0
    · by_cases ht : p.timestamp ≥ 0
      · simp only [packetLoop, loopBody, hl, ht, if_true, recording, List.takeWhile_cons,
          decide_True, List.filter_cons]
        rw [← recording, packetLoop_recording S cfg ps]
        simp
      · simp only [packetLoop, loopBody, hl, ht, if_true, if_false, List.takeWhile_cons,
          decide_True, decide_False, List.filter_cons]
        rw [packetLoop_recording S cfg ps]
        simp
    · simp [packetLoop, hl]

/-- C11 (amended): the packets handed to spudec_assemble are, in arrival order,
exactly the packets with a non-negative index time stamp among those the source
returned with a positive length before its first non-positive length; a packet
with a negative time stamp is not handed to the decoder. Observing the calls
does not change the run. -/
theorem assembler_fed_nonnegative_packets {σ : Type} (S : Spudec σ) (cfg : Config)
    (pkts : List Packet) (spu : σ) :
    (packetLoop (recording S) cfg pkts ((spu, []), Run.init)).1.2 =
      (pkts.takeWhile (fun p => decide (p.len > 0))).filter
        (fun p => decide (p.timestamp ≥ 0)) ∧
    (packetLoop (recording S) cfg pkts ((spu, []), Run.init)).2 =
      (packetLoop S cfg pkts (spu, Run.init)).2 ∧
    ∀ p ∈ (packetLoop (recording S) cfg pkts ((spu, []), Run.init)).1.2, 0 ≤ p.timestamp := by
  rw [packetLoop_recording]
  refine ⟨by simp, rfl, ?_⟩
  intro p hp
  simp only [List.nil_append, List.mem_filter, decide_eq_true_eq] at hp
  exact hp.2

/-- C11 as stated fails: a packet with index time stamp -1 is returned by the
source and is not handed to the decoder. -/
theorem negative_packet_not_fed :
    (packetLoop (recording scriptedSpu) quietConfig [packetAt (-1), packetAt 5]
      ((([unitOf 3 4 9 1], unitOf 0 0 0 0), []), Run.init)).1.2 = [packetAt 5] ∧
    [packetAt (-1), packetAt 5] ≠ [packetAt 5] := by
  decide

theorem examine_times_agree (cfg1 cfg2 : Config) (r1 r2 : Run) (ts : Int) (d : SpuData)
    (hl : r1.last_start_pts = r2.last_start_pts)
    (hc : r1.conv_subs.map sub_text_t.times = r2.conv_subs.map sub_text_t.times) :
    (examine cfg1 r1 ts d).last_start_pts = (examine cfg2 r2 ts d).last_start_pts ∧
    (examine cfg1 r1 ts d).conv_subs.map sub_text_t.times =
      (examine cfg2 r2 ts d).conv_subs.map sub_text_t.times := by
  refine ⟨by rw [examine_last_start_pts, examine_last_start_pts], ?_⟩
  by_cases hd : d.start_pts = r1.last_start_pts
  · rw [examine_duplicate cfg1 r1 ts d hd, examine_duplicate cfg2 r2 ts d (hl ▸ hd)]
    exact hc
  · have hd2 : d.start_pts ≠ r2.last_start_pts := hl ▸ hd
    by_cases hs : d.width < 9 ∨ d.height < 1
    · rw [examine_small cfg1 r1 ts d hd hs, examine_small cfg2 r2 ts d hd2 hs]
      exact hc
    · rw [(examine_accept cfg1 r1 ts d hd hs).1, (examine_accept cfg2 r2 ts d hd2 hs).1]
      simp [hc, sub_text_t.times]

theorem examineAll_times_agree (cfg1 cfg2 : Config) :
    ∀ (us : List (Int × SpuData)) (r1 r2 : Run),
      r1.last_start_pts = r2.last_start_pts →
      r1.conv_subs.map sub_text_t.times = r2.conv_subs.map sub_text_t.times →
      (examineAll cfg1 r1 us).conv_subs.map sub_text_t.times =
        (examineAll cfg2 r2 us).conv_subs.map sub_text_t.times
  | [], _, _, _, hc => hc
  | u :: us, r1, r2, hl, hc => by
    have h := examine_times_agree cfg1 cfg2 r1 r2 u.1 u.2 hl hc
    exact examineAll_times_agree cfg1 cfg2 us _ _ h.1 h.2

/-- C12: a unit that passes the duplicate test and the size check is entered in the
event list with its start_pts and end_pts whether or not recognition succeeds;
when recognition fails the text of the event is the fixed placeholder
"VobSub2SRT ERROR: OCR failure!"; the times of the events, and so their number,
are the same for every behaviour of the recogniser, and so is the number of
entries the pipeline writes. -/
theorem event_kept_when_recognition_fails (cfg : Config) (r : Run) (ts : Int) (d : SpuData)
    (hnd : d.start_pts ≠ r.last_start_pts) (hw : 9 ≤ d.width) (hh : 1 ≤ d.height) :
    accepted cfg r ts d ∧
    (cfg.recognize d.image d.width d.height d.stride = none →
      (examine cfg r ts d).conv_subs = r.conv_subs ++
        [⟨d.start_pts, d.end_pts, some "VobSub2SRT ERROR: OCR failure!".toList⟩]) ∧
    (∀ text, cfg.recognize d.image d.width d.height d.stride = some text →
      (examine cfg r ts d).conv_subs = r.conv_subs ++ [⟨d.start_pts, d.end_pts, some text⟩]) ∧
    (∀ (cfg2 : Config) (us : List (Int × SpuData)),
      (examineAll cfg Run.init us).conv_subs.map sub_text_t.times =
        (examineAll cfg2 Run.init us).conv_subs.map sub_text_t.times ∧
      (examineAll cfg Run.init us).conv_subs.length =
        (examineAll cfg2 Run.init us).conv_subs.length ∧
      (examineAll cfg Run.init us).conv_subs.length = (passedUnits 0 us).length) := by
  have hs : ¬(d.width < 9 ∨ d.height < 1) := by omega
  have hacc := (examine_accept cfg r ts d hnd hs).1
  refine ⟨⟨_, hacc⟩, ?_, ?_, ?_⟩
  · intro hnone
    rw [hacc]
    simp [recognisedText, hnone, errormsg]
  · intro text hsome
    rw [hacc]
    simp [recognisedText, hsome]
  · intro cfg2 us
    have h := examineAll_times_agree cfg cfg2 us Run.init Run.init rfl rfl
    refine ⟨h, by simpa using congrArg List.length h, ?_⟩
    rw [examineAll_conv_subs]
    simp [Run.init]

theorem event_kept_when_recognition_fails_witness :
    (examine failingConfig Run.init 0 (unitOf 7 8 9 1)).conv_subs =
      [] ++ [⟨7, 8, some "VobSub2SRT ERROR: OCR failure!".toList⟩] :=
  (event_kept_when_recognition_fails failingConfig Run.init 0 (unitOf 7 8 9 1) (by decide)
    (by decide) (by decide)).2.1 rfl

theorem packetLoop_stop {σ : Type} (S : Spudec σ) (cfg : Config) (stop : Packet)
    (rest : List Packet) (hstop : stop.len ≤ 0) :
    ∀ (pre : List Packet) (st : σ × Run), (∀ p ∈ pre, p.len > 0) →
      packetLoop S cfg (pre ++ stop :: rest) st = packetLoop S cfg pre st
  | [], st, _ => by
    have : ¬ stop.len > 0 := by omega
    simp [packetLoop, this]
  | p :: ps, st, h => by
    have hp : p.len > 0 := h p (List.mem_cons_self _ _)
    simp only [List.cons_append, packetLoop, hp, if_true]
    exact packetLoop_stop S cfg stop rest hstop ps _ (fun q hq => h q (List.mem_cons_of_mem _ hq))

/-- C13 (amended): a non-positive length from the next-packet call, negative or
zero, ends the loop in the same way as the end of the packets, and readBinary
then returns true; readBinary returns false only when the VobSub files cannot
be opened or hold no index, before any packet is read. -/
theorem nonpositive_length_ends_loop_with_success {σ : Type} (S : Spudec σ) (cfg : Config)
    (n : Nat) (spu : σ) (pre rest : List Packet) (stop : Packet)
    (hn : n ≠ 0) (hpre : ∀ p ∈ pre, p.len > 0) (hstop : stop.len ≤ 0) :
    packetLoop S cfg (pre ++ stop :: rest) (spu, Run.init) =
      packetLoop S cfg pre (spu, Run.init) ∧
    readBinary S cfg (some ⟨n, spu, pre ++ stop :: rest⟩) = readBinary S cfg (some ⟨n, spu, pre⟩) ∧
    (readBinary S cfg (some ⟨n, spu, pre ++ stop :: rest⟩)).ok = true ∧
    (readBinary S cfg none).ok = false ∧
    (readBinary S cfg (some ⟨0, spu, pre ++ stop :: rest⟩)).ok = false := by
  have h1 : ¬ (0 ≥ n) := by omega
  have hloop := packetLoop_stop S cfg stop rest hstop pre (spu, Run.init) hpre
  refine ⟨hloop, ?_, ?_, rfl, ?_⟩
  · simp only [readBinary, hn, h1, if_false, hloop]
  · simp only [readBinary, hn, h1, if_false]
  · simp [readBinary]

theorem nonpositive_length_ends_loop_with_success_witness :
    (readBinary scriptedSpu quietConfig
      (some ⟨1, ([unitOf 5 6 9 1], unitOf 0 0 0 0), [packetAt 0] ++ ⟨-1, [], 0⟩ :: []⟩)).ok
      = true :=
  (nonpositive_length_ends_loop_with_success scriptedSpu quietConfig 1
    ([unitOf 5 6 9 1], unitOf 0 0 0 0) [packetAt 0] [] ⟨-1, [], 0⟩ (by decide) (by decide)
    (by decide)).2.2.1

/-- C13 as stated fails: when the next-packet call returns -1 after one accepted
unit, readBinary returns true. -/
theorem negative_length_still_succeeds :
    (readBinary scriptedSpu quietConfig
      (some ⟨1, ([unitOf 5 6 9 1], unitOf 0 0 0 0), [packetAt 0, ⟨-1, [], 0⟩]⟩)).ok = true ∧
    (packetLoop scriptedSpu quietConfig [packetAt 0, ⟨-1, [], 0⟩]
      (([unitOf 5 6 9 1], unitOf 0 0 0 0), Run.init)).2.sub_counter = 2 := by
  decide

theorem examineAll_all_zero (cfg : Config) :
    ∀ us : List (Int × SpuData), (∀ v ∈ us, v.2.start_pts = 0) →
      examineAll cfg Run.init us = Run.init
  | [], _ => rfl
  | u :: us, h => by
    have hu : u.2.start_pts = Run.init.last_start_pts := h u (List.mem_cons_self _ _)
    have step : examineAll cfg Run.init (u :: us) =
        examineAll cfg (examine cfg Run.init u.1 u.2) us := rfl
    rw [step, examine_duplicate cfg Run.init u.1 u.2 hu]
    exact examineAll_all_zero cfg us (fun v hv => h v (List.mem_cons_of_mem _ hv))

/-- C17: with last_start_pts starting at 0, a completed unit with start_pts 0 is
discarded as a duplicate when every unit examined before it had start_pts 0 (in
particular as the first unit), whatever its width and height; the counter stays
at 1 and nothing is appended. -/
theorem start_zero_unit_discarded (cfg : Config) (us : List (Int × SpuData))
    (u : Int × SpuData) (hus : ∀ v ∈ us, v.2.start_pts = 0) (hu : u.2.start_pts = 0) :
    discardedAsDuplicate cfg (examineAll cfg Run.init us) u.1 u.2 ∧
    (examineAll cfg Run.init (us ++ [u])).sub_counter = 1 ∧
    (examineAll cfg Run.init (us ++ [u])).conv_subs = [] ∧
    (us = [] → examine cfg Run.init u.1 u.2 = Run.init) := by
  have h0 := examineAll_all_zero cfg us hus
  have hd : examine cfg Run.init u.1 u.2 = Run.init := examine_duplicate cfg Run.init u.1 u.2 hu
  have hall : examineAll cfg Run.init (us ++ [u]) = Run.init := by
    rw [examineAll_append, h0]
    exact hd
  refine ⟨?_, by rw [hall]; rfl, by rw [hall]; rfl, fun _ => hd⟩
  rw [h0]
  exact hd

theorem start_zero_unit_discarded_witness :
    discardedAsDuplicate quietConfig (examineAll quietConfig Run.init [(3, unitOf 0 5 2 2)]) 0
      (unitOf 0 9 720 576) :=
  (start_zero_unit_discarded quietConfig [(3, unitOf 0 5 2 2)] (0, unitOf 0 9 720 576)
    (by decide) rfl).1

/-! ## Fields and order of the srt time stamps -/

theorem pts2srtFields_eq (t : Nat) :
    pts2srtFields t =
      ⟨t / 90 / 3600000, t / 90 % 3600000 / 60000, t / 90 % 60000 / 1000, t / 90 % 1000⟩ := by
  have h1 := hours_rest (t / 90)
  have h2 := minutes_rest (t / 90 % 3600000)
  have e1 : t / 90 % 3600000 % 60000 = t / 90 % 60000 := by omega
  have e2 : t / 90 % 60000 % 1000 = t / 90 % 1000 := by omega
  unfold pts2srtFields
  simp only [h1, h2, e1, e2]

theorem pts2srtFormatted_eq (t : Nat) (ht : t < 2 ^ 32) :
    pts2srtFormatted t = pad2 (t / 90 / 3600000) ++ ':' :: pad2 (t / 90 % 3600000 / 60000) ++
      ':' :: pad2 (t / 90 % 60000 / 1000) ++ ',' :: pad3 (t / 90 % 1000) := by
  unfold pts2srtFormatted
  rw [pts2srtFields_eq]
  dsimp only
  rw [printf_0d_two _ (by omega), printf_0d_two _ (by omega), printf_0d_two _ (by omega),
    printf_0d_three _ (by omega)]

/-- C15: for every 32 bit pts the fields of pts2srt satisfy h <= 13, m <= 59,
s <= 59, ms <= 999 and h*3600000 + m*60000 + s*1000 + ms = pts / 90; the two
products subtracted from ms neither wrap nor exceed the value they are
subtracted from; the formatted text has exactly 12 characters and the 13 byte
buffer keeps all of it. -/
theorem pts2srt_fields_bounded (pts : Nat) (hpts : pts < 2 ^ 32) :
    (pts2srtFields pts).h ≤ 13 ∧ (pts2srtFields pts).m ≤ 59 ∧ (pts2srtFields pts).s ≤ 59 ∧
    (pts2srtFields pts).ms ≤ 999 ∧
    (pts2srtFields pts).h * 3600000 + (pts2srtFields pts).m * 60000 +
      (pts2srtFields pts).s * 1000 + (pts2srtFields pts).ms = pts / 90 ∧
    umul (umul (pts2srtFields pts).h 3600) 1000 = (pts2srtFields pts).h * 3600000 ∧
    (pts2srtFields pts).h * 3600000 ≤ pts / 90 ∧
    umul (umul (pts2srtFields pts).m 60) 1000 = (pts2srtFields pts).m * 60000 ∧
    (pts2srtFields pts).m * 60000 ≤ usub (pts / 90) (umul (umul (pts2srtFields pts).h 3600) 1000) ∧
    (pts2srtFormatted pts).length = 12 ∧
    pts2srtChars pts = pts2srtFormatted pts ∧
    (pts2srt pts).length = 12 := by
  have hch := pts2srtChars_eq pts hpts
  have hfo := pts2srtFormatted_eq pts hpts
  have hrest := hours_rest (pts / 90)
  simp only [Nat.reduceMul] at hrest
  rw [pts2srtFields_eq]
  dsimp only
  refine ⟨by omega, by omega, by omega, by omega, by omega, ?_, by omega, ?_, ?_, ?_, ?_, ?_⟩
  · simp only [umul, U32]; omega
  · simp only [umul, U32]; omega
  · rw [hrest]; omega
  · rw [hfo]; simp [pad2, pad3]
  · rw [hch, hfo]
  · show (String.mk (pts2srtChars pts)).length = 12
    rw [hch]
    simp [String.length, pad2, pad3]

theorem pts2srt_fields_bounded_witness :
    (pts2srtFields 4294967295).h ≤ 13 ∧ (pts2srt 4294967295).length = 12 :=
  ⟨(pts2srt_fields_bounded 4294967295 (by decide)).1,
    (pts2srt_fields_bounded 4294967295 (by decide)).2.2.2.2.2.2.2.2.2.2.2⟩

theorem digit_toNat (d : Nat) : (digit d).toNat = 48 + d % 10 := by
  have h : ∀ k < 10, (Char.ofNat (48 + k)).toNat = 48 + k := by decide
  exact h (d % 10) (Nat.mod_lt _ (by decide))

theorem digit_congr (a b : Nat) (h : a % 10 = b % 10) : digit a = digit b := by
  unfold digit
  rw [h]

theorem lexLt_irrefl : ∀ x : List Char, lexLt x x = false
  | [] => rfl
  | a :: as => by simp [lexLt, lexLt_irrefl as]

theorem lexLt_cons_lt (a b : Char) (x y : List Char) (h : a.toNat < b.toNat) :
    lexLt (a :: x) (b :: y) = true := by
  simp [lexLt, h]

theorem lexLt_cons_eq (a : Char) (x y : List Char) (h : lexLt x y = true) :
    lexLt (a :: x) (a :: y) = true := by
  simp [lexLt, h]

theorem lexLt_two_digits (a b : Nat) (x y : List Char) (hab : a < b) (hb : b < 100) :
    lexLt (digit (a / 10) :: digit a :: x) (digit (b / 10) :: digit b :: y) = true := by
  by_cases h : a / 10 % 10 < b / 10 % 10
  · exact lexLt_cons_lt _ _ _ _ (by rw [digit_toNat, digit_toNat]; omega)
  · rw [digit_congr (a / 10) (b / 10) (by omega)]
    exact lexLt_cons_eq _ _ _ (lexLt_cons_lt _ _ _ _ (by rw [digit_toNat, digit_toNat]; omega))

theorem lexLt_three_digits (a b : Nat) (x y : List Char) (hab : a < b) (hb : b < 1000) :
    lexLt (digit (a / 100) :: digit (a / 10) :: digit a :: x)
      (digit (b / 100) :: digit (b / 10) :: digit b :: y) = true := by
  by_cases h : a / 100 % 10 < b / 100 % 10
  · exact lexLt_cons_lt _ _ _ _ (by rw [digit_toNat, digit_toNat]; omega)
  · rw [digit_congr (a / 100) (b / 100) (by omega)]
    apply lexLt_cons_eq
    by_cases h2 : a / 10 % 10 < b / 10 % 10
    · exact lexLt_cons_lt _ _ _ _ (by rw [digit_toNat, digit_toNat]; omega)
    · rw [digit_congr (a / 10) (b / 10) (by omega)]
      exact lexLt_cons_eq _ _ _ (lexLt_cons_lt _ _ _ _ (by rw [digit_toNat, digit_toNat]; omega))

theorem lexLt_fields (h1 m1 s1 f1 h2 m2 s2 f2 : Nat)
    (hm1 : m1 < 60) (hs1 : s1 < 60) (hf1 : f1 < 1000)
    (hh2 : h2 < 100) (hm2 : m2 < 60) (hs2 : s2 < 60) (hf2 : f2 < 1000)
    (hlt : h1 * 3600000 + m1 * 60000 + s1 * 1000 + f1 < h2 * 3600000 + m2 * 60000 + s2 * 1000 + f2) :
    lexLt (pad2 h1 ++ ':' :: pad2 m1 ++ ':' :: pad2 s1 ++ ',' :: pad3 f1)
      (pad2 h2 ++ ':' :: pad2 m2 ++ ':' :: pad2 s2 ++ ',' :: pad3 f2) = true := by
  simp only [pad2, pad3, List.cons_append, List.nil_append]
  have hcases : h1 < h2 ∨ (h1 = h2 ∧ m1 < m2) ∨ (h1 = h2 ∧ m1 = m2 ∧ s1 < s2) ∨
      (h1 = h2 ∧ m1 = m2 ∧ s1 = s2 ∧ f1 < f2) := by omega
  rcases hcases with h | ⟨rfl, h⟩ | ⟨rfl, rfl, h⟩ | ⟨rfl, rfl, rfl, h⟩
  · exact lexLt_two_digits _ _ _ _ h hh2
  · exact lexLt_cons_eq _ _ _ (lexLt_cons_eq _ _ _ (lexLt_cons_eq _ _ _
      (lexLt_two_digits _ _ _ _ h (by omega))))
  · exact lexLt_cons_eq _ _ _ (lexLt_cons_eq _ _ _ (lexLt_cons_eq _ _ _
      (lexLt_cons_eq _ _ _ (lexLt_cons_eq _ _ _ (lexLt_cons_eq _ _ _
      (lexLt_two_digits _ _ _ _ h (by omega)))))))
  · exact lexLt_cons_eq _ _ _ (lexLt_cons_eq _ _ _ (lexLt_cons_eq _ _ _
      (lexLt_cons_eq _ _ _ (lexLt_cons_eq _ _ _ (lexLt_cons_eq _ _ _
      (lexLt_cons_eq _ _ _ (lexLt_cons_eq _ _ _ (lexLt_cons_eq _ _ _
      (lexLt_three_digits _ _ _ _ h hf2)))))))))

theorem lexLt_pts2srt (a b : Nat) (hb : b < 2 ^ 32) (hq : a / 90 < b / 90) :
    lexLt (pts2srt a).toList (pts2srt b).toList = true := by
  have ha : a < 2 ^ 32 := by omega
  show lexLt (pts2srtChars a) (pts2srtChars b) = true
  rw [pts2srtChars_eq a ha, pts2srtChars_eq b hb]
  apply lexLt_fields <;> omega

theorem pts2srt_ascii (t : Nat) (ht : t < 2 ^ 32) : ∀ c ∈ (pts2srt t).toList, c.toNat < 128 := by
  show ∀ c ∈ pts2srtChars t, c.toNat < 128
  rw [pts2srtChars_eq t ht]
  intro c hc
  simp only [pad2, pad3, List.cons_append, List.nil_append, List.mem_cons, List.mem_singleton,
    List.not_mem_nil, or_false] at hc
  have hd : ∀ n, (digit n).toNat < 128 := fun n => by rw [digit_toNat]; omega
  rcases hc with h | h | h | h | h | h | h | h | h | h | h | h <;> subst h <;>
    first | exact hd _ | decide

/-- C16: pts2srt is monotone on 32 bit inputs: for a <= b the text of a is below or
equal to the text of b in lexicographic order of the character codes (strictly
below when a / 90 < b / 90), and the two texts are equal exactly when
a / 90 = b / 90; every character is ASCII, so character codes are bytes. -/
theorem pts2srt_monotone (a b : Nat) (hab : a ≤ b) (hb : b < 2 ^ 32) :
    lexLe (pts2srt a).toList (pts2srt b).toList = true ∧
    (a / 90 < b / 90 → lexLt (pts2srt a).toList (pts2srt b).toList = true) ∧
    (pts2srt a = pts2srt b ↔ a / 90 = b / 90) ∧
    (∀ c ∈ (pts2srt a).toList ++ (pts2srt b).toList, c.toNat < 128) := by
  have ha : a < 2 ^ 32 := by omega
  have heq : a / 90 = b / 90 → pts2srt a = pts2srt b := by
    intro h
    unfold pts2srt
    rw [pts2srtChars_eq a ha, pts2srtChars_eq b hb, h]
  refine ⟨?_, lexLt_pts2srt a b hb, ⟨?_, heq⟩, ?_⟩
  · by_cases h : a / 90 = b / 90
    · simp [lexLe, heq h]
    · have hlt := lexLt_pts2srt a b hb (by omega)
      unfold lexLe
      rw [hlt, Bool.or_true]
  · intro hs
    by_contra h
    have hlt := lexLt_pts2srt a b hb (by omega)
    rw [hs, lexLt_irrefl] at hlt
    exact Bool.noConfusion hlt
  · intro c hc
    rcases List.mem_append.mp hc with h | h
    · exact pts2srt_ascii a ha c h
    · exact pts2srt_ascii b hb c h

theorem pts2srt_monotone_witness :
    lexLe (pts2srt 8999).toList (pts2srt 9000).toList = true ∧
    (pts2srt 8999 = pts2srt 9000 ↔ 8999 / 90 = 9000 / 90) :=
  ⟨(pts2srt_monotone 8999 9000 (by decide) (by decide)).1,
    (pts2srt_monotone 8999 9000 (by decide) (by decide)).2.2.1⟩

/-! ## dump_pgm -/

theorem printf_u_small (n : Nat) (h : n < 2 ^ 32) : printf_u n = decimal n := by
  unfold printf_u
  rw [Nat.mod_eq_of_lt (by simpa [U32] using h)]

theorem pgmRows_eq (width stride height : Nat) (image : List Nat) (image_size : Nat)
    (hstride : 0 < stride) (hsize : image_size = stride * height) (h32 : image_size < 2 ^ 32) :
    ∀ (n k fuel : Nat) (written : List Nat), k + n = height → n < fuel →
      pgmRows width stride image image_size fuel (k * stride) written =
        some (written ++ ((List.range' k n).map (pgmRow width stride image)).flatten)
  | 0, k, fuel + 1, written, hk, _ => by
    have : ¬ (k * stride < image_size) := by
      rw [hsize, Nat.mul_comm stride height]
      have : k = height := by omega
      rw [this]
      omega
    simp [pgmRows, this]
  | n + 1, k, fuel + 1, written, hk, hf => by
    have hle : (k + 1) * stride ≤ height * stride := Nat.mul_le_mul_right stride (by omega)
    have hsucc : (k + 1) * stride = k * stride + stride := Nat.succ_mul k stride
    have hsz : image_size = height * stride := by rw [hsize, Nat.mul_comm]
    have hlt : k * stride < image_size := by omega
    have hnext : (k * stride + stride) % U32 = (k + 1) * stride := by
      rw [Nat.mod_eq_of_lt (by simp only [U32]; omega), hsucc]
    simp only [pgmRows, hlt, if_true, hnext]
    rw [pgmRows_eq width stride height image image_size hstride hsize h32 n (k + 1) fuel _
      (by omega) (by omega)]
    simp [List.range'_succ, pgmRow, List.append_assoc]

theorem pgmRow_spec (width stride height : Nat) (image : List Nat) (image_size : Nat)
    (hw : width ≤ stride) (hsize : image_size = stride * height)
    (himg : image_size ≤ image.length) (r : Nat) (hr : r < height) :
    (pgmRow width stride image r).length = width ∧
    ∀ c < width, (pgmRow width stride image r)[c]? = image[r * stride + c]? := by
  have hle : (r + 1) * stride ≤ height * stride := Nat.mul_le_mul_right stride (by omega)
  have hsucc : (r + 1) * stride = r * stride + stride := Nat.succ_mul r stride
  have hsz : image_size = height * stride := by rw [hsize, Nat.mul_comm]
  constructor
  · simp only [pgmRow, List.length_take, List.length_drop]
    omega
  · intro c hc
    simp only [pgmRow]
    rw [List.getElem?_take_of_lt hc, List.getElem?_drop]

theorem digitChar_eq_digit (n : Nat) : Nat.digitChar (n % 10) = digit n := by
  have h : ∀ k < 10, Nat.digitChar k = Char.ofNat (48 + k) := by decide
  exact h (n % 10) (Nat.mod_lt _ (by decide))

theorem toDigitsCore_four (f n : Nat) (ds : List Char) (h : n < 10000) :
    Nat.toDigitsCore 10 (f + 4) n ds =
      if n < 10 then digit n :: ds
      else if n < 100 then digit (n / 10) :: digit n :: ds
      else if n < 1000 then digit (n / 100) :: digit (n / 10) :: digit n :: ds
      else digit (n / 1000) :: digit (n / 100) :: digit (n / 10) :: digit n :: ds := by
  have e2 : n / 10 / 10 = n / 100 := by omega
  have e3 : n / 100 / 10 = n / 1000 := by omega
  simp only [Nat.toDigitsCore, digitChar_eq_digit, e2, e3]
  by_cases h1 : n < 10
  · simp [h1, show n / 10 = 0 by omega]
  · by_cases h2 : n < 100
    · simp [h1, h2, show n / 10 ≠ 0 by omega, show n / 100 = 0 by omega]
    · by_cases h3 : n < 1000
      · simp [h1, h2, h3, show n / 10 ≠ 0 by omega, show n / 100 ≠ 0 by omega,
          show n / 1000 = 0 by omega]
      · simp [h1, h2, h3, show n / 10 ≠ 0 by omega, show n / 100 ≠ 0 by omega,
          show n / 1000 ≠ 0 by omega, show n / 1000 / 10 = 0 by omega]

theorem printf_0u_four (n : Nat) (h : n < 10000) : printf_0u 4 n =
    [digit (n / 1000), digit (n / 100), digit (n / 10), digit n] := by
  by_cases h3 : n < 3
  · have : ∀ k < 3, printf_0u 4 k = [digit (k / 1000), digit (k / 100), digit (k / 10), digit k] := by
      decide
    exact this n h3
  · have hmod : n % U32 = n := Nat.mod_eq_of_lt (by simp only [U32]; omega)
    have hfuel : n + 1 = (n - 3) + 4 := by omega
    have hd : decimal n =
        if n < 10 then [digit n]
        else if n < 100 then [digit (n / 10), digit n]
        else if n < 1000 then [digit (n / 100), digit (n / 10), digit n]
        else [digit (n / 1000), digit (n / 100), digit (n / 10), digit n] := by
      unfold decimal Nat.toDigits
      rw [hfuel, toDigitsCore_four _ _ _ h]
    have z : digit 0 = '0' := by decide
    unfold printf_0u
    rw [hmod, hd]
    by_cases h1 : n < 10
    · simp [h1, show n / 10 = 0 by omega, show n / 100 = 0 by omega,
        show n / 1000 = 0 by omega, z, List.replicate]
    · by_cases h2 : n < 100
      · simp [h1, h2, show n / 100 = 0 by omega, show n / 1000 = 0 by omega, z, List.replicate]
      · by_cases h4 : n < 1000
        · simp [h1, h2, h4, show n / 1000 = 0 by omega, z, List.replicate]
        · simp [h1, h2, h4]
/-- C14 (amended): for an image buffer of at least image_size bytes with
stride > 0, width <= stride and image_size = stride * height below 2^32, when the
name filename-NNNN.pgm (counter printed with %04u) fits the 500 byte buffer and
the file can be opened, dump_pgm writes to that file the header
"P5\n<width> <height> 255\n" followed by exactly height rows of width bytes, row
r being image[r*stride .. r*stride+width-1]; the other stride-width bytes of a
row are not written. -/
theorem dump_pgm_writes_rows (fopen : List Char → Bool) (fuel : Nat) (filename : List Char)
    (counter width height stride : Nat) (image : List Nat) (image_size : Nat)
    (hstride : 0 < stride) (hw : width ≤ stride) (hsize : image_size = stride * height)
    (himg : image_size ≤ image.length) (h32 : image_size < 2 ^ 32) (hs32 : stride < 2 ^ 32)
    (hname : (filename ++ '-' :: printf_0u 4 counter ++ ".pgm".toList).length ≤ 499)
    (hopen : fopen (filename ++ '-' :: printf_0u 4 counter ++ ".pgm".toList) = true)
    (hfuel : height < fuel) :
    dump_pgm fopen fuel filename counter width height stride image image_size =
      some [⟨filename ++ '-' :: printf_0u 4 counter ++ ".pgm".toList,
        ("P5\n".toList ++ decimal width ++ ' ' :: decimal height ++ " 255\n".toList).map
            Char.toNat ++
          ((List.range height).map (pgmRow width stride image)).flatten⟩] ∧
    (∀ r < height, (pgmRow width stride image r).length = width ∧
      ∀ c < width, (pgmRow width stride image r)[c]? = image[r * stride + c]?) ∧
    (counter < 10000 → printf_0u 4 counter =
      [digit (counter / 1000), digit (counter / 100), digit (counter / 10), digit counter]) := by
  have hbuf : pgmName filename counter = filename ++ '-' :: printf_0u 4 counter ++ ".pgm".toList := by
    unfold pgmName snprintf
    exact List.take_of_length_le (by omega)
  have hh32 : height < 2 ^ 32 := by
    have : height * 1 ≤ height * stride := Nat.mul_le_mul_left height hstride
    rw [hsize, Nat.mul_comm stride height] at h32
    omega
  have hhead : pgmHeader width height =
      "P5\n".toList ++ decimal width ++ ' ' :: decimal height ++ " 255\n".toList := by
    unfold pgmHeader
    rw [printf_u_small width (by omega), printf_u_small height hh32]
    have : printf_u 255 = ['2', '5', '5'] := by decide
    rw [this]
    simp
  refine ⟨?_, fun r hr => pgmRow_spec width stride height image image_size hw hsize himg r hr, ?_⟩
  · have hrows := pgmRows_eq width stride height image image_size hstride hsize h32 height 0 fuel
      ((pgmHeader width height).map Char.toNat) (by omega) hfuel
    rw [Nat.zero_mul] at hrows
    rw [hhead] at hrows
    unfold dump_pgm
    simp only [hbuf, hopen, if_true, hhead, hrows, List.range_eq_range']
  · exact printf_0u_four counter

theorem dump_pgm_writes_rows_witness :
    dump_pgm (fun _ => true) 3 "sub".toList 7 2 2 3 [1, 2, 3, 4, 5, 6] 6 =
      some [⟨"sub-0007.pgm".toList,
        "P5\n2 2 255\n".toList.map Char.toNat ++ [1, 2, 4, 5]⟩] :=
  (dump_pgm_writes_rows (fun _ => true) 3 "sub".toList 7 2 2 3 [1, 2, 3, 4, 5, 6] 6
    (by decide) (by decide) (by decide) (by decide) (by simp) (by simp) (by decide) rfl
    (by decide)).1

set_option maxRecDepth 20000 in
/-- C14 as stated fails: with a file name of 495 characters the name built in the
500 byte buffer is cut after "-000", so the bytes go to a file of another name;
and when the file cannot be opened nothing is written. -/
theorem dump_pgm_name_cut :
    (dump_pgm (fun _ => true) 3 (List.replicate 495 'a') 1 1 1 1 [7] 1).map
        (fun files => files.map (fun f => f.name)) =
      some [List.replicate 495 'a' ++ "-000".toList] ∧
    List.replicate 495 'a' ++ "-000".toList ≠ List.replicate 495 'a' ++ "-0001.pgm".toList ∧
    dump_pgm (fun _ => false) 3 "sub".toList 1 1 1 1 [7] 1 = some [] := by
  decide

end VobSub
